import Mathlib

/-!
Verification development for the structure-preserving color normalization
filter (`itkStructurePreservingColorNormalizationFilter`).

The repository ships a single header, which fixes the numeric constants
(`epsilon0`, `epsilon1`, `epsilon2`, `maxNumberOfIterations`, `lambda`,
`NumberOfStains`), the `PixelHelper` traits, and the signatures of the
pipeline stages; the stage bodies live in an `.hxx` file that is not part
of the sources at hand.  Definitions below that embed a stage whose body is
missing are modelled from the specification of that stage and say so in
their doc comment.  Floating-point arithmetic is embedded as exact rational
arithmetic.

The sample matrix is embedded in the specification's orientation: a matrix
is a list of columns, one column per pixel sample, each column holding one
rational per color channel.
-/

namespace SPCN

open Matrix

/-- Constant `epsilon0 {1e-3}` from the header: a small inf-norm value used
by the background filter threshold. -/
def epsilon0 : ℚ := 1/1000

/-- Constant `epsilon1 {1e-6}` from the header: a very small matrix element,
the floor for denominators in the multiplicative updates. -/
def epsilon1 : ℚ := 1/1000000

/-- Constant `epsilon2 {1e-12}` from the header: a very small squared
magnitude for a vector, the degeneracy threshold of the distinguisher
selection. -/
def epsilon2 : ℚ := 1/1000000000000

/-- Constant `maxNumberOfIterations {0}` from the header: the iteration
count of the multiplicative-update refinement.  It is a private
`constexpr`; the header exposes setters only for the two suppressed-channel
indices, so this value is not externally configurable. -/
def maxNumberOfIterations : ℕ := 0

/-- Constant `lambda {0.02}` from the header: the weight of the L1 (Lasso)
sparsity penalty on the concentration factor. -/
def lambda : ℚ := 1/50

/-- Constant `NumberOfStains {2}` from the header. -/
def NumberOfStains : ℕ := 2

/-! ## Pixel helper (embedded from the header's `PixelHelper` templates)

The header defines a primary template with `Length = 1` whose `value`
accessor returns the whole pixel and ignores the color argument, and a
specialization, selected when `TPixelType::Length` exists, with
`Length = TPixelType::Length` whose `value` accessor indexes the pixel by
the color argument.  The two instantiation shapes are embedded as the two
constructors of `Pixel`. -/

/-- A pixel is either a scalar (no `Length` member: a single gray value) or
a vector of channel values (`TPixelType::Length` present). -/
inductive Pixel where
  | scalar (q : ℚ)
  | vec (l : List ℚ)
deriving DecidableEq

/-- `PixelHelper::Length`: 1 for a scalar pixel, the declared length for a
vector pixel. -/
def pixelLength : Pixel → ℕ
  | .scalar _ => 1
  | .vec l => l.length

/-- `PixelHelper::value( pixel, color )`: the whole pixel for a scalar
pixel (the color argument is ignored), `pixel[color]` for a vector pixel. -/
def pixelValue : Pixel → ℕ → ℚ
  | .scalar q, _ => q
  | .vec l, color => l.getD color 0

/-! ## Column arithmetic for the sample matrix -/

/-- One color sample: a column of the sample matrix, one entry per channel. -/
abbrev Col := List ℚ

/-- Dot product of two columns. -/
def dotCol (a b : Col) : ℚ := (List.zipWith (· * ·) a b).sum

/-- Pointwise difference of two columns. -/
def subCol (a b : Col) : Col := List.zipWith (· - ·) a b

/-- Scalar multiple of a column. -/
def smulCol (q : ℚ) (a : Col) : Col := a.map (q * ·)

/-- The all-zero column of a given channel count. -/
def zeroCol (ch : ℕ) : Col := List.replicate ch 0

/-- Largest absolute entry of a column (its inf-norm). -/
def colMaxAbs (c : Col) : ℚ := (c.map (fun x => |x|)).foldr max 0

/-- Modelled from the spec: the body of `MatrixToBrightPartOfMatrix` is in
the missing `.hxx`.  The background filter computes each column's
maximum-magnitude scalar (its largest absolute channel value) and keeps
exactly the columns whose magnitude is at or above the fixed threshold
`epsilon0`, removing background columns; when every column falls below the
threshold the result is empty. -/
def MatrixToBrightPartOfMatrix (cols : List Col) : List Col :=
  cols.filter (fun c => decide (epsilon0 ≤ colMaxAbs c))

/-! ## Distinguisher extraction -/

/-- First-win maximum search: returns the index and value of the first
maximal entry of the list (ties are resolved toward the earlier index). -/
def argmaxAux : List ℚ → Option (ℕ × ℚ)
  | [] => none
  | x :: rest =>
    match argmaxAux rest with
    | none => some (0, x)
    | some (j, m) => if x < m then some (j + 1, m) else some (0, x)

/-- Modelled from the spec: the body of `MatrixToOneDistinguisher` is in
the missing `.hxx`.  Computes the projection of every column onto the
reference vector and returns the index of the column of maximal absolute
projection, the first such index under ties; returns `none` (the header
returns `-1`) when even the maximal absolute projection does not exceed the
degeneracy threshold `epsilon2`. -/
def MatrixToOneDistinguisher (cols : List Col) (lastOnes : Col) : Option ℕ :=
  match argmaxAux (cols.map (fun c => |dotCol c lastOnes|)) with
  | none => none
  | some (j, m) => if epsilon2 < m then some j else none

/-- Modelled from the spec: the body of `RecenterMatrix` is in the missing
`.hxx`.  Subtracts the chosen column (broadcast) from every column of the
matrix. -/
def RecenterMatrix (cols : List Col) (row : ℕ) : List Col :=
  let c := cols.getD row []
  cols.map (fun v => subCol v c)

/-- Modelled from the spec: the body of `ProjectMatrix` is in the missing
`.hxx`.  Removes from every column its component along the direction of the
chosen column, leaving the orthogonal complement, so that the same
direction cannot be selected again in a later round. -/
def ProjectMatrix (cols : List Col) (row : ℕ) : List Col :=
  let c := cols.getD row []
  cols.map (fun v => subCol v (smulCol (dotCol v c / dotCol c c) c))

/-- One round budget of the coarse pass: pick an extremal column; in the
first round recenter the matrix about it, in later rounds project out its
direction; stop early when the selection is degenerate. -/
def firstPassGo (lastOnes : Col) : ℕ → List Col → Bool → List ℕ → List ℕ
  | 0, _, _, acc => acc.reverse
  | n + 1, cols, needToRecenter, acc =>
    match MatrixToOneDistinguisher cols lastOnes with
    | none => acc.reverse
    | some i =>
      if needToRecenter then
        firstPassGo lastOnes n (RecenterMatrix cols i) false (i :: acc)
      else
        firstPassGo lastOnes n (ProjectMatrix cols i) false (i :: acc)

/-- Modelled from the spec: the body of `FirstPassDistinguishers` is in the
missing `.hxx`.  Runs up to `NumberOfStains + 1` rounds of the sequential
extreme-point search against the all-ones reference direction, recentering
the matrix about the first chosen point and projecting out each chosen
direction between rounds; reports the (possibly fewer than
`NumberOfStains + 1`) chosen column indices in selection order. -/
def FirstPassDistinguishers (ch : ℕ) (cols : List Col) : List ℕ :=
  firstPassGo (List.replicate ch 1) (NumberOfStains + 1) cols true []

/-- Modelled from the spec: the body of `SecondPassDistinguishers` is in
the missing `.hxx`, and the spec leaves the exact neighborhood-aggregation
rule open (design note 9); the refined representative of each first-pass
index is modelled as that extremal sample column itself. -/
def SecondPassDistinguishers (normVStart : List Col) (idxs : List ℕ) : List Col :=
  idxs.map (fun i => normVStart.getD i [])

/-! ## Role assignment and NMF seeding -/

/-- Modelled from the spec: the body of `DistinguishersToColors` is in the
missing `.hxx`.  Labels the distinguishers: the brightest one (largest
entry sum, first under ties) is the unstained color; of the remaining two,
the one with the strictly lower value in the channel suppressed by
hematoxylin is hematoxylin and the one with the strictly lower value in the
channel suppressed by eosin is eosin.  Returns `none` (an unresolved role)
when fewer than `NumberOfStains + 1` distinguishers are given or when
either suppression test is ambiguous (a tie) or the two tests collide. -/
def DistinguishersToColors (ds : List Col) (cH cE : ℕ) : Option (ℕ × ℕ × ℕ) :=
  match argmaxAux (ds.map (fun c => c.sum)) with
  | none => none
  | some (u, _) =>
    match (List.range ds.length).filter (fun k => decide (k ≠ u)) with
    | [i, j] =>
      let hi := (ds.getD i []).getD cH 0
      let hj := (ds.getD j []).getD cH 0
      let ei := (ds.getD i []).getD cE 0
      let ej := (ds.getD j []).getD cE 0
      if hi < hj ∧ ej < ei then some (u, i, j)
      else if hj < hi ∧ ei < ej then some (u, j, i)
      else none
    | _ => none

/-- Modelled from the spec: the body of `DistinguishersToNMFSeeds` is in
the missing `.hxx`.  Builds the initial stain-color matrix from the two
labeled stain distinguishers (hematoxylin first) and records the unstained
color separately; fails exactly when the roles could not be resolved. -/
def DistinguishersToNMFSeeds (ds : List Col) (cH cE : ℕ) :
    Option (List Col × Col) :=
  (DistinguishersToColors ds cH cE).map
    (fun r => ([ds.getD r.2.1 [], ds.getD r.2.2 []], ds.getD r.1 []))

/-- Modelled from the spec: per-pixel seeding of the concentration weights,
the non-negative projection of the unstained-subtracted pixel onto each
seed stain color. -/
def pixelConcentration (ws : List Col) (u : Col) (v : Col) : List ℚ :=
  ws.map (fun w => max 0 (dotCol (subCol v u) w / dotCol w w))

/-- Pointwise sum of two columns. -/
def addCol (a b : Col) : Col := List.zipWith (· + ·) a b

/-- Linear combination `Σ h_s · w_s` of the stain colors with the given
concentration weights, over `ch` channels. -/
def linComb (ws : List Col) (h : List ℚ) (ch : ℕ) : Col :=
  (List.zipWith smulCol h ws).foldr addCol (zeroCol ch)

/-- Modelled from the spec: the body of `VirtanenEuclidean` is in the
missing `.hxx`.  One multiplicative update of the stain-color factor under
the squared-Frobenius objective, with the concentration factor derived from
the current factorization: every entry is multiplied by the ratio of the
positive and negative gradient parts, denominators below `epsilon1` are
clamped to `epsilon1`, and negative results are clamped to zero. -/
def VirtanenEuclideanList (matrixV : List Col) (ws : List Col) (u : Col) :
    List Col :=
  let ch := u.length
  let hs := matrixV.map (fun v => pixelConcentration ws u v)
  (List.range ws.length).map (fun s =>
    let num := (List.zipWith (fun h v => smulCol (h.getD s 0) (subCol v u)) hs matrixV).foldr addCol (zeroCol ch)
    let den := (hs.map (fun h => smulCol (h.getD s 0) (linComb ws h ch))).foldr addCol (zeroCol ch)
    (List.range ch).map (fun c =>
      max 0 ((ws.getD s []).getD c 0 * (num.getD c 0) /
        max epsilon1 (den.getD c 0))))

/-- Modelled from the spec: the body of `ImageToNMF` is in the missing
`.hxx`.  The per-image factorization pipeline: background filtering, the
two distinguisher passes, role assignment and NMF seeding, then
`maxNumberOfIterations` multiplicative refinement steps.  Returns `none`
("not normalizable") exactly when the structural stages fail; the
refinement stage is total and never fails. -/
def ImageToNMF (ch cH cE : ℕ) (matrixV : List Col) :
    Option (List Col × Col) :=
  let bright := MatrixToBrightPartOfMatrix matrixV
  let idxs := FirstPassDistinguishers ch bright
  let ds := SecondPassDistinguishers bright idxs
  match DistinguishersToNMFSeeds ds cH cE with
  | none => none
  | some seed =>
    some ((fun f => (VirtanenEuclideanList matrixV f.1 f.2, f.2))^[maxNumberOfIterations] seed)

/-! ## Recombiner -/

/-- Clamp a channel value into the valid pixel range `[0, maxV]`. -/
def clampChannel (maxV x : ℚ) : ℚ := max 0 (min x maxV)

/-- The exact reconstruction of a pixel from a factorization: the unstained
color plus the stain colors weighted by the pixel's concentration vector. -/
def reconstructPixel (fact : List Col × Col) (v : Col) : Col :=
  addCol fact.2 (linComb fact.1 (pixelConcentration fact.1 fact.2 v) fact.2.length)

/-- Modelled from the spec: the body of `NMFsToImage` is in the missing
`.hxx`.  The Recombiner: the output pixel is the reference unstained color
combined additively with the reference stain colors weighted by the input
pixel's concentration vector (structure from the input, color appearance
from the reference), clamped to the valid pixel range. -/
def recombinePixel (maxV : ℚ) (factIn factRefer : List Col × Col) (v : Col) :
    Col :=
  (addCol factRefer.2
    (linComb factRefer.1 (pixelConcentration factIn.1 factIn.2 v)
      factRefer.2.length)).map (clampChannel maxV)

/-- The Recombiner applied over a whole region of input pixels. -/
def NMFsToImage (maxV : ℚ) (factIn factRefer : List Col × Col)
    (cols : List Col) : List Col :=
  cols.map (recombinePixel maxV factIn factRefer)

/-! ## Per-image cache and the filter run

The header caches, for the input role and the reference role independently,
the source pointer (`m_inputPtr`, `m_referPtr`), its time stamp
(`m_inputTimeStamp`, `m_referTimeStamp`) and the computed factorization
(`m_inputH`/`m_inputUnstainedPixel`, `m_referH`/`m_referUnstainedPixel`). -/

/-- A source image: an identity (the pointer), a modification time stamp,
a channel count, and its sample columns. -/
structure SrcImage where
  ident : ℕ
  stamp : ℕ
  ch : ℕ
  cols : List Col
deriving DecidableEq

/-- The filter's persistent state: the two configured suppressed-channel
indices and the two independent cache slots. -/
structure FilterState where
  cH : ℕ
  cE : ℕ
  inputKey : Option (ℕ × ℕ)
  inputFact : Option (List Col × Col)
  referKey : Option (ℕ × ℕ)
  referFact : Option (List Col × Col)
deriving DecidableEq

/-- Observable outcome of one run: whether each role's factorization was
recomputed, and the produced output pixels (`none` when an image was not
normalizable). -/
structure RunResult where
  recomputedInput : Bool
  recomputedRefer : Bool
  output : Option (List Col)
deriving DecidableEq

/-- Modelled from the spec: the caching logic of
`BeforeThreadedGenerateData` is in the missing `.hxx`.  One run of the
filter: each role's cache slot is reused when its recorded identity and
time stamp both match the incoming image, and invalidated and recomputed
otherwise; the output is recombined from the two factorizations. -/
def runOnce (maxV : ℚ) (st : FilterState) (inp ref : SrcImage) :
    RunResult × FilterState :=
  let inpHit : Bool := decide (st.inputKey = some (inp.ident, inp.stamp))
  let inFact := if inpHit then st.inputFact
    else ImageToNMF inp.ch st.cH st.cE inp.cols
  let refHit : Bool := decide (st.referKey = some (ref.ident, ref.stamp))
  let refFact := if refHit then st.referFact
    else ImageToNMF ref.ch st.cH st.cE ref.cols
  let out := match inFact, refFact with
    | some fi, some fr => some (NMFsToImage maxV fi fr inp.cols)
    | _, _ => none
  (⟨!inpHit, !refHit, out⟩,
   ⟨st.cH, st.cE, some (inp.ident, inp.stamp), inFact,
    some (ref.ident, ref.stamp), refFact⟩)

/-! ## The multiplicative-update solver on dense matrices

For the monotonicity and non-negativity analysis the solver is embedded
over `Matrix (Fin _) (Fin _) ℚ`, with the sample matrix `V` of shape
channels x pixels, the stain-color factor `W` of shape channels x stains
and the concentration factor `H` of shape stains x pixels. -/

/-- Clamp a freshly computed factor entry to be non-negative. -/
def clamp0 (x : ℚ) : ℚ := max 0 x

/-- Clamp a denominator: values below `epsilon1` are raised to `epsilon1`
to avoid division blow-up. -/
def clampDen (x : ℚ) : ℚ := max epsilon1 x

/-- Modelled from the spec: one multiplicative update of the concentration
factor under the Euclidean (squared Frobenius) objective with the L1
sparsity penalty `lambda` on the concentration factor: each entry is
multiplied by the ratio of the positive and the negative part of the
gradient, with the denominator floored at `epsilon1` and the result
clamped to be non-negative. -/
def euclideanUpdateH {m r n : ℕ} (V : Matrix (Fin m) (Fin n) ℚ)
    (W : Matrix (Fin m) (Fin r) ℚ) (H : Matrix (Fin r) (Fin n) ℚ) :
    Matrix (Fin r) (Fin n) ℚ :=
  Matrix.of fun i j =>
    clamp0 (H i j * ((Wᵀ * V) i j) / clampDen ((Wᵀ * W * H) i j + lambda))

/-- Modelled from the spec: one multiplicative update of the stain-color
factor under the Euclidean objective (no sparsity penalty on this factor),
with the same denominator floor and non-negativity clamp. -/
def euclideanUpdateW {m r n : ℕ} (V : Matrix (Fin m) (Fin n) ℚ)
    (W : Matrix (Fin m) (Fin r) ℚ) (H : Matrix (Fin r) (Fin n) ℚ) :
    Matrix (Fin m) (Fin r) ℚ :=
  Matrix.of fun k i =>
    clamp0 (W k i * ((V * Hᵀ) k i) / clampDen ((W * H * Hᵀ) k i))

/-- Modelled from the spec: one multiplicative update of the concentration
factor under the KL-divergence-style objective, with the same clamps and
the L1 penalty on the concentration factor. -/
def klUpdateH {m r n : ℕ} (V : Matrix (Fin m) (Fin n) ℚ)
    (W : Matrix (Fin m) (Fin r) ℚ) (H : Matrix (Fin r) (Fin n) ℚ) :
    Matrix (Fin r) (Fin n) ℚ :=
  Matrix.of fun i j =>
    clamp0 (H i j * (∑ k, W k i * (V k j / clampDen ((W * H) k j))) /
      clampDen ((∑ k, W k i) + lambda))

/-- Modelled from the spec: one multiplicative update of the stain-color
factor under the KL-divergence-style objective. -/
def klUpdateW {m r n : ℕ} (V : Matrix (Fin m) (Fin n) ℚ)
    (W : Matrix (Fin m) (Fin r) ℚ) (H : Matrix (Fin r) (Fin n) ℚ) :
    Matrix (Fin m) (Fin r) ℚ :=
  Matrix.of fun k i =>
    clamp0 (W k i * (∑ j, (V k j / clampDen ((W * H) k j)) * H i j) /
      clampDen (∑ j, H i j))

/-- The two objectives of `VirtanenEuclidean` and `VirtanenKLDivergence`. -/
inductive UpdateMode where
  | euclidean
  | klDivergence
deriving DecidableEq

/-- One solver iteration: the concentration factor is updated first, then
the stain-color factor against the updated concentrations, in the selected
mode. -/
def solverStep {m r n : ℕ} (mode : UpdateMode) (V : Matrix (Fin m) (Fin n) ℚ)
    (p : Matrix (Fin m) (Fin r) ℚ × Matrix (Fin r) (Fin n) ℚ) :
    Matrix (Fin m) (Fin r) ℚ × Matrix (Fin r) (Fin n) ℚ :=
  match mode with
  | .euclidean =>
    let H2 := euclideanUpdateH V p.1 p.2
    (euclideanUpdateW V p.1 H2, H2)
  | .klDivergence =>
    let H2 := klUpdateH V p.1 p.2
    (klUpdateW V p.1 H2, H2)

/-- The refinement loop: `iters` multiplicative-update iterations from the
given seed (the header runs it with `iters = maxNumberOfIterations`). -/
def runSolver {m r n : ℕ} (mode : UpdateMode) (V : Matrix (Fin m) (Fin n) ℚ)
    (p : Matrix (Fin m) (Fin r) ℚ × Matrix (Fin r) (Fin n) ℚ) (iters : ℕ) :
    Matrix (Fin m) (Fin r) ℚ × Matrix (Fin r) (Fin n) ℚ :=
  (solverStep mode V)^[iters] p

/-- Squared Frobenius norm of the reconstruction residual `V - W·H`: the
Euclidean-mode reconstruction error. -/
def errE {m r n : ℕ} (V : Matrix (Fin m) (Fin n) ℚ)
    (W : Matrix (Fin m) (Fin r) ℚ) (H : Matrix (Fin r) (Fin n) ℚ) : ℚ :=
  ∑ k, ∑ j, (V k j - (W * H) k j) ^ 2

/-- Sum of all entries of the concentration factor. -/
def sumH {r n : ℕ} (H : Matrix (Fin r) (Fin n) ℚ) : ℚ := ∑ i, ∑ j, H i j

/-- The penalized Euclidean objective the sparse multiplicative update
minimizes: half the squared residual norm plus the L1 penalty. -/
def penObjE {m r n : ℕ} (V : Matrix (Fin m) (Fin n) ℚ)
    (W : Matrix (Fin m) (Fin r) ℚ) (H : Matrix (Fin r) (Fin n) ℚ) : ℚ :=
  errE V W H / 2 + lambda * sumH H

/-- Entrywise non-negativity of a matrix. -/
def MatNonneg {a b : ℕ} (M : Matrix (Fin a) (Fin b) ℚ) : Prop :=
  ∀ i j, 0 ≤ M i j

/-- Entrywise positivity of a matrix. -/
def MatPos {a b : ℕ} (M : Matrix (Fin a) (Fin b) ℚ) : Prop :=
  ∀ i j, 0 < M i j

instance {a b : ℕ} (M : Matrix (Fin a) (Fin b) ℚ) : Decidable (MatNonneg M) :=
  inferInstanceAs (Decidable (∀ i j, 0 ≤ M i j))

instance {a b : ℕ} (M : Matrix (Fin a) (Fin b) ℚ) : Decidable (MatPos M) :=
  inferInstanceAs (Decidable (∀ i j, 0 < M i j))

/-! ## Helper lemmas -/

theorem getD_map {α β : Type*} (f : α → β) (l : List α) (n : ℕ)
    (hn : n < l.length) (d : α) (e : β) : (l.map f).getD n e = f (l.getD n d) := by
  induction l generalizing n with
  | nil => simp at hn
  | cons x xs ih =>
    cases n with
    | zero => simp
    | succ k => simpa using ih k (by simpa using hn)

theorem argmaxAux_eq_none_iff (xs : List ℚ) : argmaxAux xs = none ↔ xs = [] := by
  cases xs with
  | nil => simp [argmaxAux]
  | cons x rest =>
    simp only [argmaxAux, List.cons_ne_nil, iff_false]
    cases h : argmaxAux rest with
    | none => simp
    | some jm =>
      obtain ⟨j, m⟩ := jm
      dsimp only
      split <;> simp

theorem argmaxAux_spec (xs : List ℚ) (j : ℕ) (m : ℚ)
    (h : argmaxAux xs = some (j, m)) :
    j < xs.length ∧ xs.getD j 0 = m ∧
      (∀ k, k < xs.length → xs.getD k 0 ≤ m) ∧
      (∀ k, k < j → xs.getD k 0 < m) := by
  induction xs generalizing j m with
  | nil => simp [argmaxAux] at h
  | cons x rest ih =>
    rw [argmaxAux] at h
    cases hrest : argmaxAux rest with
    | none =>
      rw [hrest] at h
      simp only [Option.some.injEq, Prod.mk.injEq] at h
      obtain ⟨hj, hm⟩ := h
      subst hj; subst hm
      obtain rfl : rest = [] := (argmaxAux_eq_none_iff rest).mp hrest
      refine ⟨by simp, by simp, ?_, by omega⟩
      intro k hk
      simp only [List.length_cons, List.length_nil] at hk
      obtain rfl : k = 0 := by omega
      simp
    | some jm =>
      obtain ⟨j', m'⟩ := jm
      rw [hrest] at h
      dsimp only at h
      obtain ⟨hj', hgd, hle, hlt⟩ := ih j' m' hrest
      by_cases hx : x < m'
      · rw [if_pos hx] at h
        simp only [Option.some.injEq, Prod.mk.injEq] at h
        obtain ⟨hj, hm⟩ := h
        subst hj; subst hm
        refine ⟨by simpa using hj', by simpa using hgd, ?_, ?_⟩
        · intro k hk
          cases k with
          | zero => simpa using le_of_lt hx
          | succ k' => simpa using hle k' (by simpa using hk)
        · intro k hk
          cases k with
          | zero => simpa using hx
          | succ k' => simpa using hlt k' (by omega)
      · rw [if_neg hx] at h
        simp only [Option.some.injEq, Prod.mk.injEq] at h
        obtain ⟨hj, hm⟩ := h
        subst hj; subst hm
        refine ⟨by simp, by simp, ?_, by omega⟩
        intro k hk
        cases k with
        | zero => simp
        | succ k' =>
          simpa using le_trans (hle k' (by simpa using hk)) (not_lt.mp hx)

/-! ## Claim theorems -/

/-- C10: for a pixel type without a `Length` member the helper reports
exactly one channel and the channel accessor returns the whole pixel for
every color index; for a pixel type with a `Length` member the channel
count is that length and the accessor indexes the pixel by the color
index. -/
theorem pixelHelper_dispatch :
    (∀ q : ℚ, pixelLength (Pixel.scalar q) = 1) ∧
    (∀ (q : ℚ) (color : ℕ), pixelValue (Pixel.scalar q) color = q) ∧
    (∀ l : List ℚ, pixelLength (Pixel.vec l) = l.length) ∧
    (∀ (l : List ℚ) (color : ℕ), pixelValue (Pixel.vec l) color = l.getD color 0) :=
  ⟨fun _ => rfl, fun _ _ => rfl, fun _ => rfl, fun _ _ => rfl⟩

/-- C9: the compiled iteration bound is the constant zero, so the
multiplicative-update solver performs no refinement iteration in either
mode and the per-image factorization equals the NMF seed built from the
labeled distinguishers. -/
theorem compiled_solver_returns_seed :
    maxNumberOfIterations = 0 ∧
    (∀ (m r n : ℕ) (mode : UpdateMode) (V : Matrix (Fin m) (Fin n) ℚ)
      (W : Matrix (Fin m) (Fin r) ℚ) (H : Matrix (Fin r) (Fin n) ℚ),
      runSolver mode V (W, H) maxNumberOfIterations = (W, H)) ∧
    (∀ (ch cH cE : ℕ) (matrixV : List Col) (seed : List Col × Col),
      DistinguishersToNMFSeeds
        (SecondPassDistinguishers (MatrixToBrightPartOfMatrix matrixV)
          (FirstPassDistinguishers ch (MatrixToBrightPartOfMatrix matrixV)))
        cH cE = some seed →
      ImageToNMF ch cH cE matrixV = some seed) := by
  refine ⟨rfl, fun _ _ _ _ _ _ _ => rfl, fun ch cH cE matrixV seed h => ?_⟩
  simp [ImageToNMF, h, maxNumberOfIterations]

/-- Witness for C9: a concrete three-pixel image whose seeding succeeds,
on which the filter as compiled returns exactly the seed. -/
theorem compiled_solver_returns_seed_witness :
    ImageToNMF 3 0 1 [[2, 2, 2], [0, 2, 2], [2, 0, 2]] =
      some ([[0, 2, 2], [2, 0, 2]], [2, 2, 2]) :=
  compiled_solver_returns_seed.2.2 3 0 1 _ _ (by
    norm_num [DistinguishersToNMFSeeds, DistinguishersToColors,
      SecondPassDistinguishers, MatrixToBrightPartOfMatrix, colMaxAbs,
      epsilon0, FirstPassDistinguishers, firstPassGo, NumberOfStains,
      MatrixToOneDistinguisher, argmaxAux, dotCol, epsilon2,
      RecenterMatrix, ProjectMatrix, subCol, smulCol, List.filter,
      List.zipWith, List.range, List.range.loop, abs_of_nonneg,
      abs_of_nonpos])

/-- C3: for a non-negative sample matrix the background filter returns a
subset of the input's columns in their original order (hence with the
input's row count), and when every column falls below the `epsilon0`
threshold the result is the empty matrix. -/
theorem brightPart_column_subset :
    ∀ cols : List Col,
      (∀ c ∈ cols, ∀ x ∈ c, (0:ℚ) ≤ x) →
      (MatrixToBrightPartOfMatrix cols).Sublist cols ∧
      (∀ c ∈ MatrixToBrightPartOfMatrix cols, c ∈ cols) ∧
      ((∀ c ∈ cols, colMaxAbs c < epsilon0) →
        MatrixToBrightPartOfMatrix cols = []) := by
  intro cols _
  refine ⟨List.filter_sublist _, fun c hc => List.mem_of_mem_filter hc, ?_⟩
  intro hall
  apply List.filter_eq_nil_iff.mpr
  intro c hc
  simpa using not_le.mpr (hall c hc)

/-- Witness for C3: a single dim column is filtered away, and the bright
part of a bright-and-dim pair is the bright column alone. -/
theorem brightPart_column_subset_witness :
    MatrixToBrightPartOfMatrix [[1/2000]] = [] :=
  (brightPart_column_subset [[1/2000]] (by norm_num)).2.2 (by
    intro c hc
    simp only [List.mem_singleton] at hc
    subst hc
    norm_num [colMaxAbs, epsilon0, abs_of_nonneg])

/-- Absolute projection of one column of the matrix onto the reference
vector: the score the one-distinguisher selection maximizes. -/
def absProjection (cols : List Col) (lastOnes : Col) (k : ℕ) : ℚ :=
  |dotCol (cols.getD k []) lastOnes|

/-- C8: when the one-distinguisher selection returns an index, that index
is in range, its absolute projection exceeds the degeneracy threshold, no
column has a larger absolute projection, and every earlier column has a
strictly smaller one — so under ties the first extremal index in traversal
order wins and the selection is deterministic. -/
theorem oneDistinguisher_first_extremal :
    ∀ (cols : List Col) (lastOnes : Col) (i : ℕ),
      MatrixToOneDistinguisher cols lastOnes = some i →
      i < cols.length ∧
      epsilon2 < absProjection cols lastOnes i ∧
      (∀ k, k < cols.length →
        absProjection cols lastOnes k ≤ absProjection cols lastOnes i) ∧
      (∀ k, k < i →
        absProjection cols lastOnes k < absProjection cols lastOnes i) := by
  intro cols lastOnes i h
  rw [MatrixToOneDistinguisher] at h
  cases hm : argmaxAux (cols.map (fun c => |dotCol c lastOnes|)) with
  | none => rw [hm] at h; exact absurd h (by simp)
  | some jm =>
    obtain ⟨j, m⟩ := jm
    rw [hm] at h
    dsimp only at h
    by_cases hthr : epsilon2 < m
    · rw [if_pos hthr] at h
      simp only [Option.some.injEq] at h
      subst h
      obtain ⟨hj, hgd, hle, hlt⟩ := argmaxAux_spec _ _ _ hm
      rw [List.length_map] at hj
      have hme : absProjection cols lastOnes j = m := by
        rw [absProjection, ← getD_map (fun c => |dotCol c lastOnes|) cols j hj []]
        exact hgd
      refine ⟨hj, by rw [hme]; exact hthr, ?_, ?_⟩
      · intro k hk
        rw [hme, absProjection,
          ← getD_map (fun c => |dotCol c lastOnes|) cols k hk []]
        exact hle k (by simpa using hk)
      · intro k hk
        rw [hme, absProjection,
          ← getD_map (fun c => |dotCol c lastOnes|) cols k (lt_trans hk hj) []]
        exact hlt k hk
    · rw [if_neg hthr] at h
      exact absurd h (by simp)

/-- Witness for C8: on a matrix whose last two columns tie for the maximal
projection, the selection returns the first of them. -/
theorem oneDistinguisher_first_extremal_witness :
    1 < ([[(1:ℚ)], [2], [2]] : List Col).length ∧
      epsilon2 < absProjection [[(1:ℚ)], [2], [2]] [1] 1 :=
  have h := oneDistinguisher_first_extremal [[(1:ℚ)], [2], [2]] [1] 1 (by
    norm_num [MatrixToOneDistinguisher, argmaxAux, dotCol, epsilon2,
      abs_of_nonneg])
  ⟨h.1, h.2.1⟩

theorem clamp0_nonneg (x : ℚ) : 0 ≤ clamp0 x := le_max_left 0 x

theorem solverStep_nonneg {m r n : ℕ} (mode : UpdateMode)
    (V : Matrix (Fin m) (Fin n) ℚ)
    (p : Matrix (Fin m) (Fin r) ℚ × Matrix (Fin r) (Fin n) ℚ) :
    MatNonneg (solverStep mode V p).1 ∧ MatNonneg (solverStep mode V p).2 := by
  cases mode with
  | euclidean =>
    exact ⟨fun k i => clamp0_nonneg _, fun i j => clamp0_nonneg _⟩
  | klDivergence =>
    exact ⟨fun k i => clamp0_nonneg _, fun i j => clamp0_nonneg _⟩

/-- C1: from any entrywise non-negative seed factorization, after any
number of multiplicative-update iterations in either mode, all entries of
the stain-color factor and the concentration factor are still
non-negative: each update clamps would-be-negative values to zero. -/
theorem runSolver_preserves_nonneg :
    ∀ (m r n : ℕ) (mode : UpdateMode) (V : Matrix (Fin m) (Fin n) ℚ)
      (W : Matrix (Fin m) (Fin r) ℚ) (H : Matrix (Fin r) (Fin n) ℚ),
      MatNonneg W → MatNonneg H → ∀ N : ℕ,
        MatNonneg (runSolver mode V (W, H) N).1 ∧
        MatNonneg (runSolver mode V (W, H) N).2 := by
  intro m r n mode V W H hW hH N
  induction N with
  | zero => exact ⟨hW, hH⟩
  | succ N _ =>
    rw [runSolver, Function.iterate_succ_apply']
    exact solverStep_nonneg mode V _

/-- The all-ones one-by-one matrix, a concrete solver input. -/
def onesM : Matrix (Fin 1) (Fin 1) ℚ := Matrix.of fun _ _ => 1

/-- Witness for C1: two Euclidean iterations from the all-ones seed on the
all-ones sample keep both factors non-negative. -/
theorem runSolver_preserves_nonneg_witness :
    MatNonneg (runSolver UpdateMode.euclidean onesM (onesM, onesM) 2).1 ∧
    MatNonneg (runSolver UpdateMode.euclidean onesM (onesM, onesM) 2).2 :=
  runSolver_preserves_nonneg 1 1 1 UpdateMode.euclidean onesM onesM onesM
    (fun _ _ => zero_le_one) (fun _ _ => zero_le_one) 2

theorem clampChannel_closer {maxV x w : ℚ} (h0 : 0 ≤ w) (h1 : w ≤ maxV) :
    |clampChannel maxV x - w| ≤ |x - w| := by
  unfold clampChannel
  rcases le_total x 0 with hx | hx
  · rw [min_eq_left (le_trans hx (le_trans h0 h1)), max_eq_left hx,
      abs_of_nonpos (by linarith), abs_of_nonpos (by linarith)]
    linarith
  · rcases le_total x maxV with hxm | hxm
    · rw [min_eq_left hxm, max_eq_right hx]
    · rw [min_eq_right hxm, max_eq_right (le_trans h0 h1),
        abs_of_nonneg (by linarith), abs_of_nonneg (by linarith)]
      linarith

/-- C6: when the reference factorization is the input factorization (one
stain-color matrix, one unstained color), every channel of the Recombiner's
output pixel is at least as close to the input pixel as the factorization's
own exact reconstruction is — the output reproduces the input within the
reconstruction tolerance. -/
theorem recombine_self_reference_roundtrip :
    ∀ (maxV : ℚ) (ws : List Col) (u v : Col),
      0 ≤ maxV →
      (∀ c : ℕ, 0 ≤ v.getD c 0 ∧ v.getD c 0 ≤ maxV) →
      ∀ c : ℕ,
        |(recombinePixel maxV (ws, u) (ws, u) v).getD c 0 - v.getD c 0| ≤
          |(reconstructPixel (ws, u) v).getD c 0 - v.getD c 0| := by
  intro maxV ws u v _ hv c
  have hre : recombinePixel maxV (ws, u) (ws, u) v =
      (reconstructPixel (ws, u) v).map (clampChannel maxV) := rfl
  rw [hre]
  by_cases hc : c < (reconstructPixel (ws, u) v).length
  · rw [getD_map (clampChannel maxV) _ c hc 0 0]
    exact clampChannel_closer (hv c).1 (hv c).2
  · rw [List.getD_eq_default _ _ (by simpa using not_lt.mp hc),
      List.getD_eq_default _ _ (not_lt.mp hc)]

/-- Witness for C6: a concrete one-channel pixel within range is
reproduced at least as accurately as its reconstruction. -/
theorem recombine_self_reference_roundtrip_witness :
    |(recombinePixel 255 ([[1], [1]], [1]) ([[1], [1]], [1]) [2]).getD 0 0 -
        ([2] : Col).getD 0 0| ≤
      |(reconstructPixel ([[1], [1]], [1]) [2]).getD 0 0 -
        ([2] : Col).getD 0 0| :=
  recombine_self_reference_roundtrip 255 [[1], [1]] [1] [2] (by norm_num)
    (by
      intro c
      cases c with
      | zero => norm_num
      | succ c' => simp) 0

/-- C5: a second run on the same unmodified input/reference pair hits both
cache slots (neither factorization is recomputed) and produces output equal
to the first run's; changing an image's identity or modification marker
invalidates exactly that image's slot — the input role and the reference
role independently. -/
theorem cache_hit_and_invalidation :
    ∀ (maxV : ℚ) (st0 : FilterState) (inp ref : SrcImage),
      ((runOnce maxV (runOnce maxV st0 inp ref).2 inp ref).1.recomputedInput
          = false ∧
        (runOnce maxV (runOnce maxV st0 inp ref).2 inp ref).1.recomputedRefer
          = false ∧
        (runOnce maxV (runOnce maxV st0 inp ref).2 inp ref).1.output =
          (runOnce maxV st0 inp ref).1.output) ∧
      (∀ inp' : SrcImage,
        (inp'.ident ≠ inp.ident ∨ inp'.stamp ≠ inp.stamp) →
        (runOnce maxV (runOnce maxV st0 inp ref).2 inp' ref).1.recomputedInput
            = true ∧
          (runOnce maxV (runOnce maxV st0 inp ref).2 inp' ref).1.recomputedRefer
            = false) ∧
      (∀ ref' : SrcImage,
        (ref'.ident ≠ ref.ident ∨ ref'.stamp ≠ ref.stamp) →
        (runOnce maxV (runOnce maxV st0 inp ref).2 inp ref').1.recomputedInput
            = false ∧
          (runOnce maxV (runOnce maxV st0 inp ref).2 inp ref').1.recomputedRefer
            = true) := by
  intro maxV st0 inp ref
  refine ⟨⟨?_, ?_, ?_⟩, ?_, ?_⟩
  · simp [runOnce]
  · simp [runOnce]
  · simp [runOnce]
  · intro inp' h
    constructor
    · simp only [runOnce, Option.some.injEq, Prod.mk.injEq]
      simp
      rcases h with h | h
      · exact Or.inl fun hh => h hh.symm
      · exact Or.inr fun hh => h hh.symm
    · simp [runOnce]
  · intro ref' h
    constructor
    · simp [runOnce]
    · simp only [runOnce, Option.some.injEq, Prod.mk.injEq]
      simp
      rcases h with h | h
      · exact Or.inl fun hh => h hh.symm
      · exact Or.inr fun hh => h hh.symm

/-- Witness for C5: after one run, presenting the same input with a changed
time stamp recomputes the input factorization but still reuses the
reference's cache slot. -/
theorem cache_hit_and_invalidation_witness :
    (runOnce 255 (runOnce 255 (⟨0, 1, none, none, none, none⟩ : FilterState)
        (⟨1, 5, 3, []⟩ : SrcImage) (⟨2, 7, 3, []⟩ : SrcImage)).2
      (⟨1, 6, 3, []⟩ : SrcImage) (⟨2, 7, 3, []⟩ : SrcImage)).1.recomputedInput
        = true ∧
      (runOnce 255 (runOnce 255 (⟨0, 1, none, none, none, none⟩ : FilterState)
          (⟨1, 5, 3, []⟩ : SrcImage) (⟨2, 7, 3, []⟩ : SrcImage)).2
        (⟨1, 6, 3, []⟩ : SrcImage) (⟨2, 7, 3, []⟩ : SrcImage)).1.recomputedRefer
        = false :=
  (cache_hit_and_invalidation 255 ⟨0, 1, none, none, none, none⟩
      ⟨1, 5, 3, []⟩ ⟨2, 7, 3, []⟩).2.1 ⟨1, 6, 3, []⟩ (Or.inr (by norm_num))

theorem rolesFail_of_short (ds : List Col) (cH cE : ℕ)
    (hlen : ds.length < NumberOfStains + 1) :
    DistinguishersToColors ds cH cE = none := by
  rw [DistinguishersToColors]
  cases hm : argmaxAux (ds.map (fun c => c.sum)) with
  | none => rfl
  | some um =>
    obtain ⟨u, s⟩ := um
    dsimp only
    have hu : u < ds.length := by
      have h := (argmaxAux_spec _ _ _ hm).1
      simpa using h
    have hufilter :
        u ∈ (List.range ds.length).filter (fun k => !(decide (k ≠ u))) := by
      apply List.mem_filter.mpr
      exact ⟨List.mem_range.mpr hu, by simp⟩
    have h1 :
        1 ≤ ((List.range ds.length).filter (fun k => !(decide (k ≠ u)))).length :=
      List.length_pos.mpr (List.ne_nil_of_mem hufilter)
    have htot := List.length_eq_length_filter_add
      (l := List.range ds.length) (fun k => decide (k ≠ u))
    rw [List.length_range] at htot
    have hshort :
        ((List.range ds.length).filter (fun k => decide (k ≠ u))).length < 2 := by
      rw [NumberOfStains] at hlen
      omega
    cases hf : (List.range ds.length).filter (fun k => decide (k ≠ u)) with
    | nil => rfl
    | cons a t =>
      cases t with
      | nil => rfl
      | cons b t2 =>
        rw [hf] at hshort
        simp only [List.length_cons] at hshort
        omega

theorem seeds_none_iff (ds : List Col) (cH cE : ℕ) :
    DistinguishersToNMFSeeds ds cH cE = none ↔
      DistinguishersToColors ds cH cE = none := by
  rw [DistinguishersToNMFSeeds]
  exact Option.map_eq_none'

/-- C7: the per-image pipeline reports "not normalizable" (returns no
factorization) exactly when the role assignment over the extracted
distinguishers fails — in particular whenever fewer than
`NumberOfStains + 1` distinguishers were found — and never because of the
refinement stage, whose numerical degeneracies are clamped silently. -/
theorem imageToNMF_failure_iff_roles_unresolved :
    ∀ (ch cH cE : ℕ) (matrixV : List Col),
      (ImageToNMF ch cH cE matrixV = none ↔
        DistinguishersToColors
          (SecondPassDistinguishers (MatrixToBrightPartOfMatrix matrixV)
            (FirstPassDistinguishers ch (MatrixToBrightPartOfMatrix matrixV)))
          cH cE = none) ∧
      ((SecondPassDistinguishers (MatrixToBrightPartOfMatrix matrixV)
          (FirstPassDistinguishers ch (MatrixToBrightPartOfMatrix matrixV))).length
          < NumberOfStains + 1 →
        ImageToNMF ch cH cE matrixV = none) := by
  intro ch cH cE matrixV
  have hiff : ImageToNMF ch cH cE matrixV = none ↔
      DistinguishersToColors
        (SecondPassDistinguishers (MatrixToBrightPartOfMatrix matrixV)
          (FirstPassDistinguishers ch (MatrixToBrightPartOfMatrix matrixV)))
        cH cE = none := by
    rw [← seeds_none_iff]
    cases hs : DistinguishersToNMFSeeds
      (SecondPassDistinguishers (MatrixToBrightPartOfMatrix matrixV)
        (FirstPassDistinguishers ch (MatrixToBrightPartOfMatrix matrixV)))
      cH cE with
    | none => simp [ImageToNMF, hs]
    | some seed => simp [ImageToNMF, hs]
  exact ⟨hiff, fun hlen => hiff.mpr (rolesFail_of_short _ cH cE hlen)⟩

/-- Witness for C7: the empty region yields no distinguishers, so the
image is reported as not normalizable. -/
theorem imageToNMF_failure_iff_roles_unresolved_witness :
    ImageToNMF 3 0 1 [] = none :=
  (imageToNMF_failure_iff_roles_unresolved 3 0 1 []).2 (by
    norm_num [SecondPassDistinguishers, MatrixToBrightPartOfMatrix,
      FirstPassDistinguishers, firstPassGo, MatrixToOneDistinguisher,
      argmaxAux, NumberOfStains, List.filter])

theorem dotCol_self_nonneg (c : Col) : 0 ≤ dotCol c c := by
  induction c with
  | nil => simp [dotCol]
  | cons x t ih =>
    have : dotCol (x :: t) (x :: t) = x * x + dotCol t t := by
      simp [dotCol]
    rw [this]
    exact add_nonneg (mul_self_nonneg x) ih

theorem dotCol_self_entries (c : Col) (h : dotCol c c = 0) : ∀ x ∈ c, x = 0 := by
  induction c with
  | nil => simp
  | cons x t ih =>
    have hsplit : dotCol (x :: t) (x :: t) = x * x + dotCol t t := by
      simp [dotCol]
    rw [hsplit] at h
    have hx : x * x = 0 := le_antisymm
      (by linarith [dotCol_self_nonneg t]) (mul_self_nonneg x)
    have ht : dotCol t t = 0 := by linarith
    intro y hy
    rcases List.mem_cons.mp hy with rfl | hyt
    · exact mul_self_eq_zero.mp hx
    · exact ih ht y hyt

theorem dotCol_left_zero (c : Col) (h : ∀ x ∈ c, x = 0) :
    ∀ d : Col, dotCol c d = 0 := by
  induction c with
  | nil => intro d; simp [dotCol]
  | cons x t ih =>
    intro d
    cases d with
    | nil => simp [dotCol]
    | cons y s =>
      have : dotCol (x :: t) (y :: s) = x * y + dotCol t s := by
        simp [dotCol]
      rw [this, h x (by simp), ih (fun z hz => h z (by simp [hz])) s]
      ring

theorem zeroCol_entries (ch : ℕ) : ∀ x ∈ zeroCol ch, x = (0:ℚ) := by
  intro x hx
  exact List.eq_of_mem_replicate hx

theorem dotCol_zeroCol (ch : ℕ) (d : Col) : dotCol (zeroCol ch) d = 0 :=
  dotCol_left_zero _ (zeroCol_entries ch) d

theorem subCol_self (c : Col) : subCol c c = zeroCol c.length := by
  induction c with
  | nil => simp [subCol, zeroCol]
  | cons x t ih => simp [subCol, zeroCol, List.replicate_succ] at ih ⊢

theorem smulCol_zero (c : Col) : smulCol 0 c = zeroCol c.length := by
  induction c with
  | nil => simp [smulCol, zeroCol]
  | cons x t ih => simp [smulCol, zeroCol, List.replicate_succ] at ih ⊢

theorem smulCol_one (c : Col) : smulCol 1 c = c := by
  simp [smulCol]

theorem subCol_length (a b : Col) : (subCol a b).length = min a.length b.length :=
  List.length_zipWith _ _ _

theorem smulCol_length (q : ℚ) (a : Col) : (smulCol q a).length = a.length :=
  List.length_map _ _

theorem getD_mem {α : Type*} (l : List α) (i : ℕ) (d : α) (h : i < l.length) :
    l.getD i d ∈ l := by
  induction l generalizing i with
  | nil => simp at h
  | cons x t ih =>
    cases i with
    | zero => simp
    | succ k =>
      simp only [List.getD_cons_succ, List.mem_cons]
      exact Or.inr (ih k (by simpa using h))

theorem firstPassGo_invariant (ch : ℕ) (d : Col) :
    ∀ (fuel : ℕ) (cols : List Col) (needToRecenter : Bool) (acc : List ℕ),
      (∀ c ∈ cols, c.length = ch) →
      (needToRecenter = true → acc = []) →
      (∀ j ∈ acc, j < cols.length ∧ cols.getD j [] = zeroCol ch) →
      acc.Nodup →
      (firstPassGo d fuel cols needToRecenter acc).Nodup ∧
      (∀ j ∈ firstPassGo d fuel cols needToRecenter acc, j < cols.length) := by
  intro fuel
  induction fuel with
  | zero =>
    intro cols needToRecenter acc _ _ hacc hnd
    rw [firstPassGo]
    exact ⟨List.nodup_reverse.mpr hnd,
      fun j hj => (hacc j (List.mem_reverse.mp hj)).1⟩
  | succ n ih =>
    intro cols needToRecenter acc hlen hrec hacc hnd
    rw [firstPassGo]
    cases hsel : MatrixToOneDistinguisher cols d with
    | none =>
      exact ⟨List.nodup_reverse.mpr hnd,
        fun j hj => (hacc j (List.mem_reverse.mp hj)).1⟩
    | some i =>
      obtain ⟨hi, hproj, _, _⟩ := oneDistinguisher_first_extremal cols d i hsel
      have hchosen : cols.getD i [] ∈ cols := getD_mem cols i [] hi
      have hchlen : (cols.getD i []).length = ch := hlen _ hchosen
      have hcnz : dotCol (cols.getD i []) (cols.getD i []) ≠ 0 := by
        intro h0
        have hz := dotCol_left_zero _ (dotCol_self_entries _ h0) d
        rw [absProjection, hz] at hproj
        norm_num [epsilon2] at hproj
      have hinotacc : i ∉ acc := by
        intro hmem
        have hz := (hacc i hmem).2
        rw [absProjection, hz, dotCol_zeroCol] at hproj
        norm_num [epsilon2] at hproj
      cases needToRecenter with
      | true =>
        obtain rfl : acc = [] := hrec rfl
        dsimp only
        have hres := ih (RecenterMatrix cols i) false [i]
          (by
            intro c hc
            simp only [RecenterMatrix, List.mem_map] at hc
            obtain ⟨v, hv, rfl⟩ := hc
            rw [subCol_length, hlen v hv, hchlen]
            exact min_self ch)
          (by simp)
          (by
            intro j hj
            simp only [List.mem_singleton] at hj
            subst hj
            constructor
            · simpa [RecenterMatrix] using hi
            · rw [RecenterMatrix]
              rw [getD_map _ cols j hi []]
              rw [subCol_self, hchlen])
          (by simp)
        refine ⟨hres.1, fun j hj => ?_⟩
        have := hres.2 j hj
        simpa [RecenterMatrix] using this
      | false =>
        dsimp only
        have hres := ih (ProjectMatrix cols i) false (i :: acc)
          (by
            intro c hc
            simp only [ProjectMatrix, List.mem_map] at hc
            obtain ⟨v, hv, rfl⟩ := hc
            rw [subCol_length, smulCol_length, hlen v hv, hchlen]
            exact min_self ch)
          (by simp)
          (by
            intro j hj
            rcases List.mem_cons.mp hj with rfl | hjacc
            · refine ⟨by simpa [ProjectMatrix] using hi, ?_⟩
              rw [ProjectMatrix]
              rw [getD_map _ cols j hi []]
              rw [div_self hcnz, smulCol_one, subCol_self, hchlen]
            · obtain ⟨hjlt, hjzero⟩ := hacc j hjacc
              refine ⟨by simpa [ProjectMatrix] using hjlt, ?_⟩
              rw [ProjectMatrix]
              rw [getD_map _ cols j hjlt []]
              rw [hjzero, dotCol_zeroCol, zero_div, smulCol_zero, hchlen]
              simpa [zeroCol] using subCol_self (zeroCol ch))
          (List.nodup_cons.mpr ⟨hinotacc, hnd⟩)
        refine ⟨hres.1, fun j hj => ?_⟩
        have := hres.2 j hj
        simpa [ProjectMatrix] using this

/-- C4: one run of the first-pass distinguisher search returns pairwise
distinct column indices: recentering zeroes the first chosen column and
projecting out each chosen direction zeroes that column while keeping the
previously zeroed ones zero, so a zero column can never again beat the
`epsilon2` selection threshold. -/
theorem firstPassDistinguishers_nodup :
    ∀ (ch : ℕ) (cols : List Col),
      (∀ c ∈ cols, c.length = ch) →
      (FirstPassDistinguishers ch cols).Nodup ∧
      (∀ j ∈ FirstPassDistinguishers ch cols, j < cols.length) := by
  intro ch cols hlen
  exact firstPassGo_invariant ch (List.replicate ch 1) (NumberOfStains + 1)
    cols true [] hlen (fun _ => rfl) (by simp) List.nodup_nil

/-- Witness for C4: the three indices chosen on a concrete three-pixel
matrix are pairwise distinct. -/
theorem firstPassDistinguishers_nodup_witness :
    (FirstPassDistinguishers 3 [[2, 2, 2], [0, 2, 2], [2, 0, 2]]).Nodup :=
  (firstPassDistinguishers_nodup 3 [[2, 2, 2], [0, 2, 2], [2, 0, 2]] (by
    intro c hc
    simp only [List.mem_cons, List.not_mem_nil, or_false] at hc
    rcases hc with rfl | rfl | rfl <;> rfl)).1

/-! ## Monotonicity analysis of the Euclidean multiplicative update

The classical auxiliary-function argument for the sparse multiplicative
update, in per-column vector form: `vecA` is the positive gradient part
`(Aᵀ v)`, `vecB` the negative part `(Aᵀ A h)`, `vecObj` the penalized
least-squares objective of one column, and `muUpdate` the multiplicative
update of one column. -/

def vecA {m r : ℕ} (A : Matrix (Fin m) (Fin r) ℚ) (v : Fin m → ℚ) :
    Fin r → ℚ :=
  fun i => ∑ k, A k i * v k

def vecB {m r : ℕ} (A : Matrix (Fin m) (Fin r) ℚ) (h : Fin r → ℚ) :
    Fin r → ℚ :=
  fun i => ∑ k, A k i * (∑ l, A k l * h l)

def vecObj {m r : ℕ} (A : Matrix (Fin m) (Fin r) ℚ) (v : Fin m → ℚ)
    (lam : ℚ) (x : Fin r → ℚ) : ℚ :=
  (∑ k, (v k - ∑ i, A k i * x i) ^ 2) / 2 + lam * ∑ i, x i

def muUpdate {m r : ℕ} (A : Matrix (Fin m) (Fin r) ℚ) (v : Fin m → ℚ)
    (lam : ℚ) (h : Fin r → ℚ) : Fin r → ℚ :=
  fun i => h i * vecA A v i / (vecB A h i + lam)

theorem vecB_nonneg {m r : ℕ} (A : Matrix (Fin m) (Fin r) ℚ)
    (h : Fin r → ℚ) (hA : ∀ k i, 0 ≤ A k i) (hh : ∀ i, 0 ≤ h i) (i : Fin r) :
    0 ≤ vecB A h i :=
  Finset.sum_nonneg fun k _ => mul_nonneg (hA k i)
    (Finset.sum_nonneg fun l _ => mul_nonneg (hA k l) (hh l))

theorem vecA_nonneg {m r : ℕ} (A : Matrix (Fin m) (Fin r) ℚ)
    (v : Fin m → ℚ) (hA : ∀ k i, 0 ≤ A k i) (hv : ∀ k, 0 ≤ v k) (i : Fin r) :
    0 ≤ vecA A v i :=
  Finset.sum_nonneg fun k _ => mul_nonneg (hA k i) (hv k)

theorem quad_bound {m r : ℕ} (A : Matrix (Fin m) (Fin r) ℚ)
    (h e : Fin r → ℚ) (hA : ∀ k i, 0 ≤ A k i) (hh : ∀ i, 0 < h i) :
    ∑ k, (∑ i, A k i * e i) ^ 2 ≤ ∑ i, vecB A h i * (e i) ^ 2 / h i := by
  have hBnn : ∀ i j : Fin r, 0 ≤ ∑ k, A k i * A k j :=
    fun i j => Finset.sum_nonneg fun k _ => mul_nonneg (hA k i) (hA k j)
  have hLHS : ∑ k, (∑ i, A k i * e i) ^ 2 =
      ∑ i, ∑ j, (∑ k, A k i * A k j) * (e i * e j) := by
    have h1 : ∀ k, (∑ i, A k i * e i) ^ 2 =
        ∑ i, ∑ j, A k i * e i * (A k j * e j) := by
      intro k
      rw [sq, Finset.sum_mul_sum]
    rw [Finset.sum_congr rfl fun k _ => h1 k, Finset.sum_comm]
    apply Finset.sum_congr rfl
    intro i _
    rw [Finset.sum_comm]
    apply Finset.sum_congr rfl
    intro j _
    rw [Finset.sum_mul]
    apply Finset.sum_congr rfl
    intro k _
    ring
  have hterm : ∀ i j : Fin r,
      (∑ k, A k i * A k j) * (h i * h j) * (e i / h i - e j / h j) ^ 2 =
        (∑ k, A k i * A k j) * h j * (e i) ^ 2 / h i +
          (∑ k, A k i * A k j) * h i * (e j) ^ 2 / h j -
          2 * ((∑ k, A k i * A k j) * (e i * e j)) := by
    intro i j
    have hi' : h i ≠ 0 := ne_of_gt (hh i)
    have hj' : h j ≠ 0 := ne_of_gt (hh j)
    field_simp
    ring
  have key : (0:ℚ) ≤
      ∑ i, ∑ j, (∑ k, A k i * A k j) * (h i * h j) *
        (e i / h i - e j / h j) ^ 2 :=
    Finset.sum_nonneg fun i _ => Finset.sum_nonneg fun j _ =>
      mul_nonneg (mul_nonneg (hBnn i j)
        (le_of_lt (mul_pos (hh i) (hh j)))) (sq_nonneg _)
  have hexpand : ∑ i, ∑ j, (∑ k, A k i * A k j) * (h i * h j) *
      (e i / h i - e j / h j) ^ 2 =
      (∑ i, ∑ j, (∑ k, A k i * A k j) * h j * (e i) ^ 2 / h i) +
        (∑ i, ∑ j, (∑ k, A k i * A k j) * h i * (e j) ^ 2 / h j) -
        2 * ∑ i, ∑ j, (∑ k, A k i * A k j) * (e i * e j) := by
    rw [Finset.mul_sum, ← Finset.sum_add_distrib, ← Finset.sum_sub_distrib]
    apply Finset.sum_congr rfl
    intro i _
    rw [Finset.mul_sum, ← Finset.sum_add_distrib, ← Finset.sum_sub_distrib]
    exact Finset.sum_congr rfl fun j _ => hterm i j
  have hswap : ∑ i, ∑ j, (∑ k, A k i * A k j) * h i * (e j) ^ 2 / h j =
      ∑ i, ∑ j, (∑ k, A k i * A k j) * h j * (e i) ^ 2 / h i := by
    rw [Finset.sum_comm]
    apply Finset.sum_congr rfl
    intro i _
    apply Finset.sum_congr rfl
    intro j _
    have : (∑ k, A k j * A k i) = ∑ k, A k i * A k j :=
      Finset.sum_congr rfl fun k _ => by ring
    rw [this]
  have hcollect : ∑ i, ∑ j, (∑ k, A k i * A k j) * h j * (e i) ^ 2 / h i =
      ∑ i, vecB A h i * (e i) ^ 2 / h i := by
    apply Finset.sum_congr rfl
    intro i _
    rw [← Finset.sum_div, ← Finset.sum_mul]
    have : ∑ j, (∑ k, A k i * A k j) * h j = vecB A h i := by
      rw [vecB]
      have h2 : ∀ j, (∑ k, A k i * A k j) * h j = ∑ k, A k i * A k j * h j :=
        fun j => Finset.sum_mul _ _ _
      rw [Finset.sum_congr rfl fun j _ => h2 j, Finset.sum_comm]
      apply Finset.sum_congr rfl
      intro k _
      rw [Finset.mul_sum]
      exact Finset.sum_congr rfl fun j _ => by ring
    rw [this]
  linarith [key, hexpand, hswap, hcollect, hLHS]

theorem muUpdate_decreases_obj {m r : ℕ} (A : Matrix (Fin m) (Fin r) ℚ)
    (v : Fin m → ℚ) (lam : ℚ) (h : Fin r → ℚ)
    (hA : ∀ k i, 0 ≤ A k i) (hh : ∀ i, 0 < h i)
    (hlam : 0 ≤ lam) (hd : ∀ i, 0 < vecB A h i + lam) :
    vecObj A v lam (muUpdate A v lam h) ≤ vecObj A v lam h := by
  set e : Fin r → ℚ := fun i => muUpdate A v lam h i - h i with hedef
  have hupd : ∀ i, muUpdate A v lam h i = h i + e i := by
    intro i
    rw [hedef]
    ring
  have he : ∀ i, e i =
      -(h i * (vecB A h i + lam - vecA A v i)) / (vecB A h i + lam) := by
    intro i
    have hdi : vecB A h i + lam ≠ 0 := ne_of_gt (hd i)
    rw [hedef]
    dsimp only
    rw [muUpdate]
    field_simp
    ring
  have hsplit : ∀ k, (∑ i, A k i * muUpdate A v lam h i) =
      (∑ i, A k i * h i) + ∑ i, A k i * e i := by
    intro k
    rw [← Finset.sum_add_distrib]
    exact Finset.sum_congr rfl fun i _ => by rw [hupd i]; ring
  have hsq : ∀ k, (v k - ∑ i, A k i * muUpdate A v lam h i) ^ 2 =
      (v k - ∑ i, A k i * h i) ^ 2 -
        2 * ((v k - ∑ i, A k i * h i) * (∑ i, A k i * e i)) +
        (∑ i, A k i * e i) ^ 2 := by
    intro k
    rw [hsplit k]
    ring
  have hsumsq : ∑ k, (v k - ∑ i, A k i * muUpdate A v lam h i) ^ 2 =
      (∑ k, (v k - ∑ i, A k i * h i) ^ 2) -
        2 * (∑ k, (v k - ∑ i, A k i * h i) * (∑ i, A k i * e i)) +
        ∑ k, (∑ i, A k i * e i) ^ 2 := by
    rw [Finset.sum_congr rfl fun k _ => hsq k, Finset.sum_add_distrib,
      Finset.sum_sub_distrib, ← Finset.mul_sum]
  have hcross : ∑ k, (v k - ∑ i, A k i * h i) * (∑ i, A k i * e i) =
      ∑ i, (vecA A v i - vecB A h i) * e i := by
    have h1 : ∀ k, (v k - ∑ i, A k i * h i) * (∑ i, A k i * e i) =
        ∑ i, (v k - ∑ l, A k l * h l) * (A k i * e i) :=
      fun k => Finset.mul_sum _ _ _
    rw [Finset.sum_congr rfl fun k _ => h1 k, Finset.sum_comm]
    apply Finset.sum_congr rfl
    intro i _
    have h2 : ∀ k, (v k - ∑ l, A k l * h l) * (A k i * e i) =
        A k i * v k * e i - A k i * (∑ l, A k l * h l) * e i :=
      fun k => by ring
    rw [Finset.sum_congr rfl fun k _ => h2 k, Finset.sum_sub_distrib,
      ← Finset.sum_mul, ← Finset.sum_mul]
    simp only [vecA, vecB]
    ring
  have hPen : ∑ i, muUpdate A v lam h i = (∑ i, h i) + ∑ i, e i := by
    rw [← Finset.sum_add_distrib]
    exact Finset.sum_congr rfl fun i _ => by rw [hupd i]
  have hglin : ∑ i, (vecB A h i + lam - vecA A v i) * e i =
      lam * (∑ i, e i) - ∑ i, (vecA A v i - vecB A h i) * e i := by
    rw [Finset.mul_sum, ← Finset.sum_sub_distrib]
    exact Finset.sum_congr rfl fun i _ => by ring
  have hexp : vecObj A v lam (muUpdate A v lam h) = vecObj A v lam h +
      (∑ i, (vecB A h i + lam - vecA A v i) * e i) +
      (∑ k, (∑ i, A k i * e i) ^ 2) / 2 := by
    rw [vecObj, vecObj]
    linear_combination hsumsq / 2 + lam * hPen - hglin - hcross
  have hq := quad_bound A h e hA hh
  have hmid : ∑ i, vecB A h i * (e i) ^ 2 / h i ≤
      ∑ i, (vecB A h i + lam) * (e i) ^ 2 / h i :=
    Finset.sum_le_sum fun i _ => by
      have h1 : vecB A h i * (e i) ^ 2 ≤ (vecB A h i + lam) * (e i) ^ 2 :=
        mul_le_mul_of_nonneg_right (by linarith) (sq_nonneg _)
      exact (div_le_div_iff_of_pos_right (hh i)).mpr h1
  have hperterm : ∀ i,
      (vecB A h i + lam - vecA A v i) * e i +
        (vecB A h i + lam) * (e i) ^ 2 / h i / 2 =
      -(h i * (vecB A h i + lam - vecA A v i) ^ 2 /
        (2 * (vecB A h i + lam))) := by
    intro i
    have hdi : vecB A h i + lam ≠ 0 := ne_of_gt (hd i)
    have hhi : h i ≠ 0 := ne_of_gt (hh i)
    rw [he i]
    field_simp
    ring
  have hsumterm : (∑ i, (vecB A h i + lam - vecA A v i) * e i) +
      (∑ i, (vecB A h i + lam) * (e i) ^ 2 / h i) / 2 =
      ∑ i, -(h i * (vecB A h i + lam - vecA A v i) ^ 2 /
        (2 * (vecB A h i + lam))) := by
    rw [Finset.sum_div, ← Finset.sum_add_distrib]
    exact Finset.sum_congr rfl fun i _ => hperterm i
  have hneg : ∑ i, -(h i * (vecB A h i + lam - vecA A v i) ^ 2 /
      (2 * (vecB A h i + lam))) ≤ 0 :=
    Finset.sum_nonpos fun i _ => neg_nonpos.mpr
      (div_nonneg (mul_nonneg (le_of_lt (hh i)) (sq_nonneg _))
        (by linarith [hd i]))
  linarith [hexp, hq, hmid, hsumterm, hneg]

theorem WtV_apply {m r n : ℕ} (V : Matrix (Fin m) (Fin n) ℚ)
    (W : Matrix (Fin m) (Fin r) ℚ) (i : Fin r) (j : Fin n) :
    (Wᵀ * V) i j = vecA W (fun k => V k j) i := by
  rw [Matrix.mul_apply, vecA]
  exact Finset.sum_congr rfl fun k _ => by rw [Matrix.transpose_apply]

theorem WtWH_apply {m r n : ℕ} (W : Matrix (Fin m) (Fin r) ℚ)
    (H : Matrix (Fin r) (Fin n) ℚ) (i : Fin r) (j : Fin n) :
    (Wᵀ * W * H) i j = vecB W (fun l => H l j) i := by
  rw [Matrix.mul_apply]
  have h1 : ∀ l, (Wᵀ * W) i l * H l j = ∑ k, W k i * (W k l * H l j) := by
    intro l
    rw [Matrix.mul_apply, Finset.sum_mul]
    exact Finset.sum_congr rfl fun k _ => by rw [Matrix.transpose_apply]; ring
  rw [Finset.sum_congr rfl fun l _ => h1 l, Finset.sum_comm, vecB]
  exact Finset.sum_congr rfl fun k _ => by rw [Finset.mul_sum]

theorem euclideanUpdateH_eq_muUpdate {m r n : ℕ}
    (V : Matrix (Fin m) (Fin n) ℚ) (W : Matrix (Fin m) (Fin r) ℚ)
    (H : Matrix (Fin r) (Fin n) ℚ)
    (hV : MatNonneg V) (hW : MatNonneg W) (hH : MatNonneg H)
    (i : Fin r) (j : Fin n) :
    euclideanUpdateH V W H i j =
      muUpdate W (fun k => V k j) lambda (fun l => H l j) i := by
  simp only [euclideanUpdateH, Matrix.of_apply, muUpdate]
  rw [WtV_apply, WtWH_apply]
  have hbnn : 0 ≤ vecB W (fun l => H l j) i :=
    vecB_nonneg _ _ hW (fun l => hH l j) i
  have hden : clampDen (vecB W (fun l => H l j) i + lambda) =
      vecB W (fun l => H l j) i + lambda := by
    rw [clampDen, max_eq_right]
    have : epsilon1 ≤ lambda := by norm_num [epsilon1, lambda]
    linarith
  rw [hden, clamp0, max_eq_right]
  apply div_nonneg
    (mul_nonneg (hH i j) (vecA_nonneg _ _ hW (fun k => hV k j) i))
  have : (0:ℚ) < lambda := by norm_num [lambda]
  linarith

theorem penObjE_eq_sum_cols {m r n : ℕ} (V : Matrix (Fin m) (Fin n) ℚ)
    (W : Matrix (Fin m) (Fin r) ℚ) (H : Matrix (Fin r) (Fin n) ℚ) :
    penObjE V W H =
      ∑ j, vecObj W (fun k => V k j) lambda (fun i => H i j) := by
  rw [penObjE, errE, sumH]
  simp only [vecObj]
  rw [Finset.sum_add_distrib, ← Finset.sum_div, ← Finset.mul_sum]
  congr 1
  · congr 1
    rw [Finset.sum_comm]
    apply Finset.sum_congr rfl
    intro k _
    apply Finset.sum_congr rfl
    intro j _
    rw [Matrix.mul_apply]
  · congr 1
    exact Finset.sum_comm

theorem errE_eq_sum_rows {m r n : ℕ} (V : Matrix (Fin m) (Fin n) ℚ)
    (W : Matrix (Fin m) (Fin r) ℚ) (H : Matrix (Fin r) (Fin n) ℚ) :
    errE V W H / 2 =
      ∑ k, vecObj Hᵀ (fun j => V k j) 0 (fun i => W k i) := by
  simp only [vecObj, Matrix.transpose_apply, zero_mul, add_zero]
  rw [errE, Finset.sum_div]
  apply Finset.sum_congr rfl
  intro k _
  congr 1
  apply Finset.sum_congr rfl
  intro j _
  rw [Matrix.mul_apply]
  congr 1
  congr 1
  exact Finset.sum_congr rfl fun i _ => by ring

theorem euclideanUpdateW_eq_muUpdate {m r n : ℕ}
    (V : Matrix (Fin m) (Fin n) ℚ) (W : Matrix (Fin m) (Fin r) ℚ)
    (H2 : Matrix (Fin r) (Fin n) ℚ)
    (hV : MatNonneg V) (hW : MatNonneg W) (hH2 : MatNonneg H2)
    (hden : ∀ k i, epsilon1 ≤ (W * H2 * H2ᵀ) k i) (k : Fin m) (i : Fin r) :
    euclideanUpdateW V W H2 k i =
      muUpdate H2ᵀ (fun j => V k j) 0 (fun l => W k l) i := by
  simp only [euclideanUpdateW, Matrix.of_apply, muUpdate]
  have hnum : (V * H2ᵀ) k i = vecA H2ᵀ (fun j => V k j) i := by
    rw [Matrix.mul_apply, vecA]
    exact Finset.sum_congr rfl fun j _ => by
      rw [Matrix.transpose_apply]; ring
  have hdenv : (W * H2 * H2ᵀ) k i = vecB H2ᵀ (fun l => W k l) i := by
    rw [Matrix.mul_apply]
    have h1 : ∀ j, (W * H2) k j * H2ᵀ j i =
        H2ᵀ j i * (∑ l, H2ᵀ j l * W k l) := by
      intro j
      rw [Matrix.mul_apply]
      simp only [Matrix.transpose_apply]
      rw [Finset.sum_mul, Finset.mul_sum]
      exact Finset.sum_congr rfl fun l _ => by ring
    rw [Finset.sum_congr rfl fun j _ => h1 j, vecB]
  rw [hnum, hdenv]
  have hb : epsilon1 ≤ vecB H2ᵀ (fun l => W k l) i := by
    rw [← hdenv]
    exact hden k i
  have hbpos : (0:ℚ) < vecB H2ᵀ (fun l => W k l) i := by
    have : (0:ℚ) < epsilon1 := by norm_num [epsilon1]
    linarith
  have hden2 : clampDen (vecB H2ᵀ (fun l => W k l) i) =
      vecB H2ᵀ (fun l => W k l) i + 0 := by
    rw [clampDen, max_eq_right hb, add_zero]
  rw [hden2, clamp0, max_eq_right]
  apply div_nonneg
    (mul_nonneg (hW k i)
      (vecA_nonneg _ _ (fun j l => hH2 l j) (fun j => hV k j) i))
  linarith

/-- C2 (amended): one full Euclidean iteration (concentration update, then
stain-color update against the updated concentrations) does not increase
the penalized objective — half the squared Frobenius reconstruction error
plus the `lambda`-weighted L1 penalty on the concentrations — for any
non-negative sample matrix, positive factors, and stain-update denominators
above the `epsilon1` clamp. -/
theorem euclideanStep_penalized_objective_nonincreasing
    {m r n : ℕ} (V : Matrix (Fin m) (Fin n) ℚ)
    (W : Matrix (Fin m) (Fin r) ℚ) (H : Matrix (Fin r) (Fin n) ℚ)
    (hV : MatNonneg V) (hW : MatPos W) (hH : MatPos H)
    (hdenW : ∀ k i, epsilon1 ≤
      (W * euclideanUpdateH V W H * (euclideanUpdateH V W H)ᵀ) k i) :
    penObjE V (solverStep UpdateMode.euclidean V (W, H)).1
        (solverStep UpdateMode.euclidean V (W, H)).2 ≤
      penObjE V W H := by
  have hWnn : MatNonneg W := fun k i => le_of_lt (hW k i)
  have hHnn : MatNonneg H := fun i j => le_of_lt (hH i j)
  have hH2nn : MatNonneg (euclideanUpdateH V W H) :=
    fun i j => clamp0_nonneg _
  have hstep : solverStep UpdateMode.euclidean V (W, H) =
      (euclideanUpdateW V W (euclideanUpdateH V W H),
        euclideanUpdateH V W H) := rfl
  rw [hstep]
  have h1 : penObjE V W (euclideanUpdateH V W H) ≤ penObjE V W H := by
    rw [penObjE_eq_sum_cols, penObjE_eq_sum_cols]
    apply Finset.sum_le_sum
    intro j _
    have hcolEq : (fun i => euclideanUpdateH V W H i j) =
        muUpdate W (fun k => V k j) lambda (fun l => H l j) :=
      funext fun i => euclideanUpdateH_eq_muUpdate V W H hV hWnn hHnn i j
    rw [hcolEq]
    apply muUpdate_decreases_obj W (fun k => V k j) lambda (fun l => H l j)
      hWnn (fun i => hH i j) (by norm_num [lambda])
    intro i
    have hb := vecB_nonneg W (fun l => H l j) hWnn (fun l => le_of_lt (hH l j)) i
    have : (0:ℚ) < lambda := by norm_num [lambda]
    linarith
  have h2 : penObjE V (euclideanUpdateW V W (euclideanUpdateH V W H))
      (euclideanUpdateH V W H) ≤ penObjE V W (euclideanUpdateH V W H) := by
    rw [penObjE, penObjE]
    have hrow : errE V (euclideanUpdateW V W (euclideanUpdateH V W H))
        (euclideanUpdateH V W H) / 2 ≤
        errE V W (euclideanUpdateH V W H) / 2 := by
      rw [errE_eq_sum_rows, errE_eq_sum_rows]
      apply Finset.sum_le_sum
      intro k _
      have hrowEq : (fun i => euclideanUpdateW V W (euclideanUpdateH V W H) k i) =
          muUpdate (euclideanUpdateH V W H)ᵀ (fun j => V k j) 0
            (fun l => W k l) :=
        funext fun i => euclideanUpdateW_eq_muUpdate V W
          (euclideanUpdateH V W H) hV hWnn hH2nn hdenW k i
      rw [hrowEq]
      apply muUpdate_decreases_obj (euclideanUpdateH V W H)ᵀ
        (fun j => V k j) 0 (fun l => W k l)
        (fun j l => hH2nn l j) (fun l => hW k l) le_rfl
      intro i
      have hdkv : (W * euclideanUpdateH V W H * (euclideanUpdateH V W H)ᵀ) k i =
          vecB (euclideanUpdateH V W H)ᵀ (fun l => W k l) i := by
        rw [Matrix.mul_apply]
        have hterm : ∀ j, (W * euclideanUpdateH V W H) k j *
            (euclideanUpdateH V W H)ᵀ j i =
            (euclideanUpdateH V W H)ᵀ j i *
              (∑ l, (euclideanUpdateH V W H)ᵀ j l * W k l) := by
          intro j
          rw [Matrix.mul_apply]
          simp only [Matrix.transpose_apply]
          rw [Finset.sum_mul, Finset.mul_sum]
          exact Finset.sum_congr rfl fun l _ => by ring
        rw [Finset.sum_congr rfl fun j _ => hterm j, vecB]
      have hb : epsilon1 ≤ vecB (euclideanUpdateH V W H)ᵀ (fun l => W k l) i := by
        rw [← hdkv]
        exact hdenW k i
      have : (0:ℚ) < epsilon1 := by norm_num [epsilon1]
      linarith
    linarith [hrow]
  linarith [h1, h2]

/-- A one-row sample matrix with two pixels, exactly factored by the seed
below. -/
def cexV : Matrix (Fin 1) (Fin 2) ℚ := !![1, 2]

/-- A positive one-stain seed color. -/
def cexW : Matrix (Fin 1) (Fin 1) ℚ := !![1]

/-- A positive concentration seed that reconstructs `cexV` exactly. -/
def cexH : Matrix (Fin 1) (Fin 2) ℚ := !![1, 2]

/-- Counterexample to C2 as stated: the seed is a valid positive
factorization with reconstruction error exactly zero, yet one Euclidean
iteration of the solver (with its built-in `lambda = 0.02` sparsity
penalty) strictly increases the squared-Frobenius reconstruction error by
more than `1/100000` — far beyond single-precision floating tolerance. -/
theorem sparsity_increases_reconstruction_error :
    MatPos cexW ∧ MatPos cexH ∧ errE cexV cexW cexH = 0 ∧
      errE cexV cexW cexH + 1 / 100000 <
        errE cexV (solverStep UpdateMode.euclidean cexV (cexW, cexH)).1
          (solverStep UpdateMode.euclidean cexV (cexW, cexH)).2 := by
  refine ⟨fun k i => by norm_num [cexW], fun i j => ?_, ?_, ?_⟩
  · fin_cases i
    fin_cases j <;> norm_num [cexH]
  · norm_num [errE, cexV, cexW, cexH, Matrix.mul_apply, Fin.sum_univ_one,
      Fin.sum_univ_two]
  · norm_num [errE, solverStep, euclideanUpdateH, euclideanUpdateW,
      cexV, cexW, cexH, clamp0, clampDen, lambda, epsilon1,
      Matrix.mul_apply, Matrix.transpose_apply, Matrix.of_apply,
      Fin.sum_univ_one, Fin.sum_univ_two, max_def]

/-- Witness for the amended C2: at the all-ones one-by-one seed the
hypotheses hold concretely and one Euclidean iteration does not increase
the penalized objective. -/
theorem euclideanStep_penalized_objective_nonincreasing_witness :
    penObjE onesM (solverStep UpdateMode.euclidean onesM (onesM, onesM)).1
        (solverStep UpdateMode.euclidean onesM (onesM, onesM)).2 ≤
      penObjE onesM onesM onesM :=
  euclideanStep_penalized_objective_nonincreasing onesM onesM onesM
    (fun _ _ => zero_le_one) (fun _ _ => zero_lt_one) (fun _ _ => zero_lt_one)
    (by
      intro k i
      norm_num [onesM, euclideanUpdateH, clamp0, clampDen, lambda, epsilon1,
        Matrix.mul_apply, Matrix.transpose_apply, Matrix.of_apply,
        Fin.sum_univ_one, max_def])

end SPCN
